import Mathlib

/-!
Verification of the RouteBus core (typed pub/sub event bus over an
in-memory transport).

The embedding follows the two source files:

* `createInMemoryTransport` (src/unnamed/part_002): a
  `Map<event, Set<handler>>` of listeners; `publish` snapshots the
  subscriber set (`Array.from`) and invokes each handler in insertion
  order; `subscribe` adds the handler to the per-event set (JS `Set`
  semantics: insertion-ordered, no duplicates) and returns a closure
  deleting the handler and garbage-collecting empty buckets; `close`
  clears the listener map.

* `createRouteBus` (src/unnamed/part_003): keeps the transport, a FIFO
  `queue` of (event, payload) pairs and a registry
  `unsubscribeFunctions : Map<string, Map<handler, unsubscribe>>`.
  `on` subscribes through the transport and records the transport
  unsubscribe keyed by (event, handler identity); `once` wraps the
  handler in a fresh closure that runs the handler and then calls the
  bus level unsubscribe; `off` looks the pair up in the registry;
  `emit` calls `transport.publish(..).catch(log)`; `enqueue` pushes;
  `drain` loops `while queue.length > 0 { proc(queue.shift()) }`;
  `clear` empties the queue, invokes every recorded transport
  unsubscribe, clears the registry and calls `transport.close()`.

JS `Map`s and `Set`s are modelled as insertion-ordered association
lists / lists; handler identity is modelled by the `Listener` type
(a fresh `once` wrapper closure gets its own identity `onceW h w`).
Payloads are opaque values, modelled as `Nat` and passed through
unchanged.
-/

namespace RouteBus

/-- Identity of a callable registered at the transport: either a plain
handler (identified by reference, modelled as a `Nat` tag) or a `once`
wrapper closure around handler `h` (the wrapper is a fresh closure, so
it carries its own identity tag `w`). -/
inductive Listener where
  | plain (h : Nat)
  | onceW (h : Nat) (w : Nat)
deriving DecidableEq, Repr

/-- A per-event subscriber collection: JS `Set` iteration order is
insertion order, so a list without duplicates. -/
abbrev Bucket := List Listener

/-- `Map<event, Set<handler>>` / `Map<string, Map<handler, _>>`:
insertion-ordered association list keyed by the event name. -/
abbrev LMap := List (String × Bucket)

/-- `map.get(event)`: first (in a well-formed map: only) entry for the
key. -/
def getB : LMap → String → Option Bucket
  | [], _ => none
  | (k, v) :: t, e => if k = e then some v else getB t e

/-- The subscriber list for an event, `[]` when the event has no entry
(`publish` treats a missing entry as "no handlers"). -/
def bucketOf (l : LMap) (e : String) : Bucket := (getB l e).getD []

/-- `subscribe` / registry insertion:
`if (!m.has(e)) m.set(e, new Set()); m.get(e)!.add(h)` —
a new key is appended at the end of the map, an existing handler is
left where it is (JS `Set.add` of a present element is a no-op; for
the registry, `Map.set` of a present key keeps its position). -/
def tSubscribe : LMap → String → Listener → LMap
  | [], e, sub => [(e, [sub])]
  | (k, v) :: t, e, sub =>
      if k = e then
        (if sub ∈ v then (k, v) :: t else (k, v ++ [sub]) :: t)
      else (k, v) :: tSubscribe t e sub

/-- The transport-level unsubscribe closure returned by `subscribe`
(and equally the registry removal done by `on`'s returned closure and
by `off`): look the event up, delete the handler from its bucket, and
drop the bucket entirely once empty. Reads the live map, keyed only by
the captured (event, handler) pair. -/
def tUnsub : LMap → String → Listener → LMap
  | [], _, _ => []
  | (k, v) :: t, e, sub =>
      if k = e then
        (let v' := v.erase sub
         if v' = [] then t else (k, v') :: t)
      else (k, v) :: tUnsub t e sub

/-- State of one bus built over the in-memory transport:
the transport's listener map, the bus registry
(`unsubscribeFunctions`; the stored unsubscribe value is determined by
its (event, handler) key, so only the keys are tracked), and the event
queue. -/
structure BusState where
  listeners : LMap
  registry : LMap
  queue : List (String × Nat)
deriving DecidableEq, Repr

/-- A freshly created bus. -/
def busInit : BusState := ⟨[], [], []⟩

/-- `on(event, handler)`: subscribe at the transport, record the
unsubscribe capability in the registry under (event, handler). -/
def busOn (s : BusState) (e : String) (sub : Listener) : BusState :=
  { s with
    listeners := tSubscribe s.listeners e sub
    registry := tSubscribe s.registry e sub }

/-- The closure returned by `on` (and captured by `once`'s wrapper):
run the transport unsubscribe, then delete the handler from the
registry bucket and garbage-collect it. Its behaviour depends only on
the captured (event, handler) pair and the live maps. -/
def busUnsub (s : BusState) (e : String) (sub : Listener) : BusState :=
  { s with
    listeners := tUnsub s.listeners e sub
    registry := tUnsub s.registry e sub }

/-- `once(event, handler)`: `on` with the fresh wrapper closure. -/
def busOnce (s : BusState) (e : String) (h w : Nat) : BusState :=
  busOn s e (.onceW h w)

/-- `off(event, handler)`: look the handler up in the registry bucket
for the event; when present, invoke the stored transport unsubscribe
and delete the registry entry (same shape as `busUnsub`); otherwise do
nothing at all. -/
def busOff (s : BusState) (e : String) (sub : Listener) : BusState :=
  match getB s.registry e with
  | none => s
  | some inner => if sub ∈ inner then busUnsub s e sub else s

/-- The state effect of one handler invocation during dispatch: a
plain handler does nothing to the bus; a `once` wrapper runs its
captured bus-level unsubscribe after the user handler. -/
def onceEff (e : String) (sub : Listener) (st : BusState) : BusState :=
  match sub with
  | .plain _ => st
  | .onceW _ _ => busUnsub st e sub

/-- `publish`, generalised over the handlers' re-entrant state effect
`eff`: take the snapshot `Array.from(handlers)` of the current bucket
first, then invoke each snapshot element in order (recorded as an
(identity, payload) pair) while threading the handlers' effects on the
bus state. -/
def dispatchWith (eff : Listener → Nat → BusState → BusState)
    (s : BusState) (e : String) (p : Nat) :
    List (Listener × Nat) × BusState :=
  let snap := bucketOf s.listeners e
  (snap.map (fun sub => (sub, p)), snap.foldl (fun st sub => eff sub p st) s)

/-- `emit(event, payload)`: publish through the transport; the only
bus-state effects handlers have in the core are the `once` wrappers'
self-unsubscribes. -/
def busEmit (s : BusState) (e : String) (p : Nat) :
    List (Listener × Nat) × BusState :=
  dispatchWith (fun sub _ st => onceEff e sub st) s e p

/-- `enqueue(event, payload)`: append to the tail of the queue. -/
def busEnqueue (s : BusState) (e : String) (p : Nat) : BusState :=
  { s with queue := s.queue ++ [(e, p)] }

/-- A sequence of emits, concatenating the invocation records. -/
def runEmits : BusState → List (String × Nat) → List (Listener × Nat) × BusState
  | s, [] => ([], s)
  | s, (e, p) :: rest =>
      let r := busEmit s e p
      let rs := runEmits r.2 rest
      (r.1 ++ rs.1, rs.2)

/-- How many of the recorded invocations belong to one listener
identity. -/
def invCount (sub : Listener) (tr : List (Listener × Nat)) : Nat :=
  tr.countP (fun r => r.1 == sub)

/-- Total number of occurrences of a listener across all transport
buckets. -/
def totalOcc (l : LMap) (sub : Listener) : Nat :=
  (l.map (fun kv => kv.2.count sub)).sum

/-- Well-formedness of a listener/registry map, maintained by the JS
`Map`/`Set` semantics: keys are unique, buckets are duplicate-free and
(because empty buckets are garbage-collected) non-empty. -/
def WFm (l : LMap) : Prop :=
  (l.map (fun kv => kv.1)).Nodup ∧ ∀ kv ∈ l, kv.2 ≠ [] ∧ kv.2.Nodup

instance : DecidablePred WFm := fun _l =>
  inferInstanceAs (Decidable (_ ∧ _))

/-- Well-formedness of a bus state. -/
def WFb (s : BusState) : Prop := WFm s.listeners ∧ WFm s.registry

instance : DecidablePred WFb := fun _s =>
  inferInstanceAs (Decidable (_ ∧ _))

/-- The loop of `drain()` with the default processor: shift the head,
`emit` it, repeat. `emit` never touches the queue, so the loop
consumes exactly the items present when `drain` was entered; the
recursion is on that initial list. Returns the processor calls in
order, the handler invocation records, and the final state. -/
def drainGo : BusState → List (String × Nat) →
    List (String × Nat) × List (Listener × Nat) × BusState
  | s, [] => ([], [], s)
  | s, (e, p) :: rest =>
      let r := busEmit s e p
      let rec' := drainGo r.2 rest
      ((e, p) :: rec'.1, r.1 ++ rec'.2.1, rec'.2.2)

/-- `drain()` with no argument: default-emit every queued item. -/
def drainDefault (s : BusState) :
    List (String × Nat) × List (Listener × Nat) × BusState :=
  drainGo { s with queue := [] } s.queue

/-- The processor-call sequence of `drain(customProcessor)`: the loop
shifts the head and hands it to the processor, which is external code
— the bus itself performs no emission and no registry access. -/
def drainCalls : List (String × Nat) → List (String × Nat)
  | [] => []
  | i :: r => i :: drainCalls r

/-- `drain(customProcessor)` for a processor that does not re-enter
the bus: every queued item is handed to the processor in order and the
queue is emptied; listeners and registry are untouched. -/
def drainCustom (s : BusState) : List (String × Nat) × BusState :=
  (drainCalls s.queue, { s with queue := [] })

/-- `drain(customProcessor)` for a processor that may call `enqueue`:
`π i` is the list of items the processor pushes while handling `i`
(`queue.push` appends, so they land behind the already-queued rest).
The `while (queue.length > 0)` loop re-checks the queue each
iteration; the loop need not terminate, so it is modelled with fuel:
the `Bool` reports whether the loop exited by emptying the queue.
Returns (processed items in order, remaining queue, finished). -/
def drainFuel (π : String × Nat → List (String × Nat)) :
    Nat → List (String × Nat) → List (String × Nat) →
    List (String × Nat) × List (String × Nat) × Bool
  | _, [], acc => (acc, [], true)
  | 0, q, acc => (acc, q, false)
  | f + 1, i :: rest, acc => drainFuel π f (rest ++ π i) (acc ++ [i])

/-- `clear()`: empty the queue; invoke every stored transport
unsubscribe (walking the registry in insertion order); clear the
registry; then call `transport.close()`, which clears the listener
map. -/
def busClear (s : BusState) : BusState :=
  let s1 : BusState := { s with queue := [] }
  let s2 : BusState :=
    s1.registry.foldl
      (fun st kv =>
        kv.2.foldl (fun st' sub => { st' with listeners := tUnsub st'.listeners kv.1 sub }) st)
      s1
  let s3 : BusState := { s2 with registry := [] }
  { s3 with listeners := [] }

/-- The public bus operations, for reasoning about whole operation
sequences. -/
inductive BusOp where
  | on (e : String) (h : Nat)
  | once (e : String) (h w : Nat)
  | unsub (e : String) (sub : Listener)
  | off (e : String) (sub : Listener)
  | emit (e : String) (p : Nat)
  | enqueue (e : String) (p : Nat)
  | drain
  | clear
deriving DecidableEq, Repr

/-- One bus operation; the `Nat` counts how many times this step
invoked `transport.close()` (the in-memory transport does provide
`close`, and `clear` calls it unconditionally). -/
def stepOp (s : BusState) (op : BusOp) : BusState × Nat :=
  match op with
  | .on e h => (busOn s e (.plain h), 0)
  | .once e h w => (busOnce s e h w, 0)
  | .unsub e sub => (busUnsub s e sub, 0)
  | .off e sub => (busOff s e sub, 0)
  | .emit e p => ((busEmit s e p).2, 0)
  | .enqueue e p => (busEnqueue s e p, 0)
  | .drain => ((drainDefault s).2.2, 0)
  | .clear => (busClear s, 1)

/-- Run a sequence of bus operations, totalling the
`transport.close()` invocations. -/
def runOps : BusState → List BusOp → BusState × Nat
  | s, [] => (s, 0)
  | s, op :: rest =>
      let r := stepOp s op
      let r' := runOps r.1 rest
      (r'.1, r.2 + r'.2)

/-- Dispatch when handlers may raise (`thr sub = true` means the
handler raises when invoked): the `for` loop in `publish` runs the
snapshot in order and stops at the first raising handler; the raise
escapes the loop. Returns the invoked listeners (the raising one
included — it ran) and whether a raise occurred. -/
def dispatchExc (thr : Listener → Bool) : List Listener → List Listener × Bool
  | [] => ([], false)
  | a :: t =>
      if thr a then ([a], true)
      else
        let r := dispatchExc thr t
        (a :: r.1, r.2)

/-- `publish` is an `async` function: a synchronous raise inside its
body is captured and becomes a rejected promise, i.e. an `error`
result — it is never raised synchronously into the caller of
`publish`. -/
def asyncResult (threw : Bool) : Except Unit Unit :=
  if threw then .error () else .ok ()

/-- `.catch(err => console.error(..))` as attached by `emit`: a
rejection is consumed and logged; the combined call always completes
normally. Returns (what the caller of `emit` sees, whether an error
was logged). -/
def catchLogged (r : Except Unit Unit) : Except Unit Unit × Bool :=
  match r with
  | .ok a => (.ok a, false)
  | .error _ => (.ok (), true)

instance : DecidableEq (Except Unit Unit) := fun a b =>
  match a, b with
  | .ok (), .ok () => isTrue rfl
  | .error (), .error () => isTrue rfl
  | .ok (), .error () => isFalse (fun h => Except.noConfusion h)
  | .error (), .ok () => isFalse (fun h => Except.noConfusion h)

/-- Outcome of one `emit` when handlers may raise. -/
structure EmitResult where
  invoked : List Listener
  outcome : Except Unit Unit
  logged : Bool
deriving DecidableEq, Repr

/-- `emit(event, payload)` in the exception-aware layer:
`transport.publish(event, payload).catch(console.error)`. -/
def busEmitExc (thr : Listener → Bool) (s : BusState) (e : String) : EmitResult :=
  let d := dispatchExc thr (bucketOf s.listeners e)
  let caught := catchLogged (asyncResult d.2)
  { invoked := d.1, outcome := caught.1, logged := caught.2 }

/-- A handler that always raises (for concrete counterexamples). -/
def thrAll : Listener → Bool := fun _ => true

/-- A one-listener bus state used as concrete input. -/
def sOneThrow : BusState :=
  ⟨[("e", [Listener.plain 0])], [("e", [Listener.plain 0])], []⟩

/-- A concrete drain processor that enqueues a follow-up item the
first time it sees ("a", 0). -/
def enqOnce : String × Nat → List (String × Nat) :=
  fun i => if i = ("a", 0) then [("a", 1)] else []

/-- A concrete two-listener state used as witness input. -/
def sTwo : BusState :=
  ⟨[("a", [Listener.plain 0, Listener.plain 1])],
   [("a", [Listener.plain 0, Listener.plain 1])], []⟩

theorem getB_mem {l : LMap} {e : String} {b : Bucket}
    (h : getB l e = some b) : (e, b) ∈ l := by
  induction l with
  | nil => simp [getB] at h
  | cons kv t ih =>
    obtain ⟨k, v⟩ := kv
    by_cases hk : k = e
    · subst hk
      simp [getB] at h
      simp [h]
    · simp [getB, hk] at h
      exact List.mem_cons_of_mem _ (ih h)

theorem getB_eq_none_of_not_key {l : LMap} {e : String}
    (h : e ∉ l.map (fun kv => kv.1)) : getB l e = none := by
  induction l with
  | nil => rfl
  | cons kv t ih =>
    obtain ⟨k, v⟩ := kv
    simp only [List.map_cons, List.mem_cons] at h
    push_neg at h
    have hk : k ≠ e := fun hh => h.1 hh.symm
    simp only [getB, if_neg hk]
    exact ih h.2

theorem tUnsub_of_not_key {l : LMap} {e : String} (sub : Listener)
    (h : e ∉ l.map (fun kv => kv.1)) : tUnsub l e sub = l := by
  induction l with
  | nil => rfl
  | cons kv t ih =>
    obtain ⟨k, v⟩ := kv
    simp only [List.map_cons, List.mem_cons] at h
    push_neg at h
    have hk : k ≠ e := fun hh => h.1 hh.symm
    simp only [tUnsub, if_neg hk]
    rw [ih h.2]

theorem WFm_tail {kv : String × Bucket} {t : LMap} (h : WFm (kv :: t)) : WFm t := by
  obtain ⟨h1, h2⟩ := h
  exact ⟨(List.nodup_cons.mp h1).2, fun x hx => h2 x (List.mem_cons_of_mem _ hx)⟩

theorem bucketOf_cons_self {k : String} {v : Bucket} {t : LMap} :
    bucketOf ((k, v) :: t) k = v := by
  simp [bucketOf, getB]

theorem bucketOf_cons_ne {k e : String} {v : Bucket} {t : LMap} (h : k ≠ e) :
    bucketOf ((k, v) :: t) e = bucketOf t e := by
  simp [bucketOf, getB, h]

theorem bucketOf_tSubscribe_self {l : LMap} {e : String} {sub : Listener}
    (h : sub ∉ bucketOf l e) :
    bucketOf (tSubscribe l e sub) e = bucketOf l e ++ [sub] := by
  induction l with
  | nil => simp [tSubscribe, bucketOf, getB]
  | cons kv t ih =>
    obtain ⟨k, v⟩ := kv
    by_cases hk : k = e
    · subst hk
      rw [bucketOf_cons_self] at h
      simp [tSubscribe, if_neg h, bucketOf_cons_self]
    · rw [bucketOf_cons_ne hk] at h
      simp only [tSubscribe, if_neg hk]
      rw [bucketOf_cons_ne hk, bucketOf_cons_ne hk, ih h]

theorem mem_bucketOf_tSubscribe_self (l : LMap) (e : String) (sub : Listener) :
    sub ∈ bucketOf (tSubscribe l e sub) e := by
  induction l with
  | nil => simp [tSubscribe, bucketOf, getB]
  | cons kv t ih =>
    obtain ⟨k, v⟩ := kv
    by_cases hk : k = e
    · subst hk
      by_cases hv : sub ∈ v
      · simp [tSubscribe, hv, bucketOf_cons_self]
      · simp [tSubscribe, hv, bucketOf_cons_self]
    · simpa [tSubscribe, hk, bucketOf_cons_ne hk] using ih

theorem totalOcc_cons {k : String} {v : Bucket} {t : LMap} {sub : Listener} :
    totalOcc ((k, v) :: t) sub = v.count sub + totalOcc t sub := by
  simp [totalOcc]

theorem totalOcc_eq_zero {l : LMap} {sub : Listener}
    (h : ∀ kv ∈ l, sub ∉ kv.2) : totalOcc l sub = 0 := by
  induction l with
  | nil => rfl
  | cons kv t ih =>
    obtain ⟨k, v⟩ := kv
    rw [totalOcc_cons, ih (fun x hx => h x (List.mem_cons_of_mem _ hx))]
    have := h (k, v) (List.mem_cons_self _ _)
    simp [List.count_eq_zero.mpr this]

theorem count_bucketOf_le_totalOcc (l : LMap) (e : String) (sub : Listener) :
    (bucketOf l e).count sub ≤ totalOcc l sub := by
  induction l with
  | nil => simp [bucketOf, getB, totalOcc]
  | cons kv t ih =>
    obtain ⟨k, v⟩ := kv
    rw [totalOcc_cons]
    by_cases hk : k = e
    · subst hk
      rw [bucketOf_cons_self]
      omega
    · rw [bucketOf_cons_ne hk]
      omega

theorem not_mem_bucketOf_of_total_zero {l : LMap} {e : String} {sub : Listener}
    (h : totalOcc l sub = 0) : sub ∉ bucketOf l e := by
  intro hmem
  have h1 : 0 < (bucketOf l e).count sub := List.count_pos_iff.mpr hmem
  have h2 := count_bucketOf_le_totalOcc l e sub
  omega

theorem totalOcc_tSubscribe {l : LMap} {e : String} {sub : Listener}
    (h : sub ∉ bucketOf l e) :
    totalOcc (tSubscribe l e sub) sub = totalOcc l sub + 1 := by
  induction l with
  | nil => simp [tSubscribe, totalOcc]
  | cons kv t ih =>
    obtain ⟨k, v⟩ := kv
    by_cases hk : k = e
    · subst hk
      rw [bucketOf_cons_self] at h
      simp only [tSubscribe, eq_self_iff_true, if_true, if_neg h]
      rw [totalOcc_cons, totalOcc_cons, List.count_append]
      simp
      omega
    · rw [bucketOf_cons_ne hk] at h
      simp only [tSubscribe, if_neg hk]
      rw [totalOcc_cons, totalOcc_cons, ih h]
      omega

theorem erase_eq_nil_cases {v : Bucket} {sub : Listener}
    (h : v.erase sub = []) : v = [] ∨ v = [sub] := by
  cases v with
  | nil => exact Or.inl rfl
  | cons x xs =>
    rw [List.erase_cons] at h
    by_cases hx : x = sub
    · subst hx
      simp at h
      subst h
      exact Or.inr rfl
    · rw [if_neg (by simp [hx])] at h
      exact absurd h (List.cons_ne_nil _ _)

theorem totalOcc_tUnsub_self {l : LMap} {e : String} {sub : Listener}
    (h : sub ∈ bucketOf l e) :
    totalOcc (tUnsub l e sub) sub + 1 = totalOcc l sub := by
  induction l with
  | nil => simp [bucketOf, getB] at h
  | cons kv t ih =>
    obtain ⟨k, v⟩ := kv
    by_cases hk : k = e
    · subst hk
      rw [bucketOf_cons_self] at h
      have hc1 : 0 < v.count sub := List.count_pos_iff.mpr h
      have hc2 : (v.erase sub).count sub = v.count sub - 1 :=
        List.count_erase_self sub v
      by_cases hnil : v.erase sub = []
      · have hc0 : (v.erase sub).count sub = 0 := by rw [hnil]; rfl
        simp only [tUnsub, eq_self_iff_true, if_true, if_pos hnil]
        rw [totalOcc_cons]
        omega
      · simp only [tUnsub, eq_self_iff_true, if_true, if_neg hnil]
        rw [totalOcc_cons, totalOcc_cons, hc2]
        omega
    · rw [bucketOf_cons_ne hk] at h
      simp only [tUnsub, if_neg hk]
      rw [totalOcc_cons, totalOcc_cons]
      have := ih h
      omega

theorem totalOcc_tUnsub_other {l : LMap} {e : String} {sub sub' : Listener}
    (h : sub' ≠ sub) :
    totalOcc (tUnsub l e sub') sub = totalOcc l sub := by
  induction l with
  | nil => rfl
  | cons kv t ih =>
    obtain ⟨k, v⟩ := kv
    by_cases hk : k = e
    · subst hk
      have hc : (v.erase sub').count sub = v.count sub :=
        List.count_erase_of_ne (Ne.symm h) v
      by_cases hnil : v.erase sub' = []
      · have hv0 : v.count sub = 0 := by
          rcases erase_eq_nil_cases hnil with h1 | h1
          · simp [h1]
          · rw [h1]
            exact List.count_eq_zero.mpr (by
              intro hmem
              exact h (List.mem_singleton.mp hmem).symm)
        simp only [tUnsub, eq_self_iff_true, if_true, if_pos hnil]
        rw [totalOcc_cons]
        omega
      · simp only [tUnsub, eq_self_iff_true, if_true, if_neg hnil]
        rw [totalOcc_cons, totalOcc_cons, hc]
    · simp only [tUnsub, if_neg hk]
      rw [totalOcc_cons, totalOcc_cons, ih]

theorem mem_bucketOf_tUnsub_other {l : LMap} {e e' : String} {sub sub' : Listener}
    (hne : sub' ≠ sub) (h : sub ∈ bucketOf l e) :
    sub ∈ bucketOf (tUnsub l e' sub') e := by
  induction l with
  | nil => simp [bucketOf, getB] at h
  | cons kv t ih =>
    obtain ⟨k, v⟩ := kv
    by_cases hk' : k = e'
    · subst hk'
      by_cases hke : k = e
      · subst hke
        rw [bucketOf_cons_self] at h
        have hmem : sub ∈ v.erase sub' :=
          (List.mem_erase_of_ne (fun hh => hne hh.symm)).mpr h
        have hnil : v.erase sub' ≠ [] := List.ne_nil_of_mem hmem
        simp only [tUnsub, eq_self_iff_true, if_true, if_neg hnil]
        rw [bucketOf_cons_self]
        exact hmem
      · rw [bucketOf_cons_ne hke] at h
        by_cases hnil : v.erase sub' = []
        · simp only [tUnsub, eq_self_iff_true, if_true, if_pos hnil]
          exact h
        · simp only [tUnsub, eq_self_iff_true, if_true, if_neg hnil]
          rw [bucketOf_cons_ne hke]
          exact h
    · simp only [tUnsub, if_neg hk']
      by_cases hke : k = e
      · subst hke
        rw [bucketOf_cons_self] at h
        rw [bucketOf_cons_self]
        exact h
      · rw [bucketOf_cons_ne hke] at h
        rw [bucketOf_cons_ne hke]
        exact ih h

theorem WFm_cons_key {k : String} {v : Bucket} {t : LMap}
    (h : WFm ((k, v) :: t)) : k ∉ t.map (fun kv => kv.1) := by
  have h1 := h.1
  rw [List.map_cons] at h1
  exact (List.nodup_cons.mp h1).1

theorem WFm_cons_bucket {k : String} {v : Bucket} {t : LMap}
    (h : WFm ((k, v) :: t)) : v ≠ [] ∧ v.Nodup :=
  h.2 (k, v) (List.mem_cons_self _ _)

theorem not_mem_bucketOf_tUnsub_self {l : LMap} {e : String} {sub : Listener}
    (hw : WFm l) : sub ∉ bucketOf (tUnsub l e sub) e := by
  induction l with
  | nil => simp [tUnsub, bucketOf, getB]
  | cons kv t ih =>
    obtain ⟨k, v⟩ := kv
    by_cases hk : k = e
    · subst hk
      by_cases hnil : v.erase sub = []
      · simp only [tUnsub, eq_self_iff_true, if_true, if_pos hnil]
        rw [bucketOf, getB_eq_none_of_not_key (WFm_cons_key hw)]
        simp
      · simp only [tUnsub, eq_self_iff_true, if_true, if_neg hnil]
        rw [bucketOf_cons_self]
        exact List.Nodup.not_mem_erase (WFm_cons_bucket hw).2
    · simp only [tUnsub, if_neg hk]
      rw [bucketOf_cons_ne hk]
      exact ih (WFm_tail hw)

theorem mem_bucketOf_tUnsub_self_iff {l : LMap} {e : String} {sub sub' : Listener}
    (hw : WFm l) (hne : sub' ≠ sub) :
    sub' ∈ bucketOf (tUnsub l e sub) e ↔ sub' ∈ bucketOf l e := by
  induction l with
  | nil => simp [tUnsub]
  | cons kv t ih =>
    obtain ⟨k, v⟩ := kv
    by_cases hk : k = e
    · subst hk
      by_cases hnil : v.erase sub = []
      · simp only [tUnsub, eq_self_iff_true, if_true, if_pos hnil]
        rw [bucketOf, getB_eq_none_of_not_key (WFm_cons_key hw), bucketOf_cons_self]
        have hv : v = [sub] := by
          rcases erase_eq_nil_cases hnil with h1 | h1
          · exact absurd h1 (WFm_cons_bucket hw).1
          · exact h1
        subst hv
        simp [hne]
      · simp only [tUnsub, eq_self_iff_true, if_true, if_neg hnil]
        rw [bucketOf_cons_self, bucketOf_cons_self]
        exact List.mem_erase_of_ne hne
    · simp only [tUnsub, if_neg hk]
      rw [bucketOf_cons_ne hk, bucketOf_cons_ne hk]
      exact ih (WFm_tail hw)

theorem tUnsub_idem {l : LMap} {e : String} {sub : Listener} (hw : WFm l) :
    tUnsub (tUnsub l e sub) e sub = tUnsub l e sub := by
  induction l with
  | nil => rfl
  | cons kv t ih =>
    obtain ⟨k, v⟩ := kv
    by_cases hk : k = e
    · subst hk
      by_cases hnil : v.erase sub = []
      · simp only [tUnsub, eq_self_iff_true, if_true, if_pos hnil]
        exact tUnsub_of_not_key sub (WFm_cons_key hw)
      · simp only [tUnsub, eq_self_iff_true, if_true, if_neg hnil]
        rw [List.erase_of_not_mem (List.Nodup.not_mem_erase (WFm_cons_bucket hw).2)]
        rw [if_neg hnil]
    · simp only [tUnsub, if_neg hk]
      rw [ih (WFm_tail hw)]

theorem busUnsub_idem {s : BusState} {e : String} {sub : Listener}
    (hw : WFb s) : busUnsub (busUnsub s e sub) e sub = busUnsub s e sub := by
  simp only [busUnsub]
  rw [tUnsub_idem hw.1, tUnsub_idem hw.2]

theorem onceEff_queue (e : String) (sub : Listener) (st : BusState) :
    (onceEff e sub st).queue = st.queue := by
  cases sub <;> rfl

theorem foldl_onceEff_queue (e : String) :
    ∀ (snap : List Listener) (s : BusState),
      (snap.foldl (fun st sub => onceEff e sub st) s).queue = s.queue := by
  intro snap
  induction snap with
  | nil => intro s; rfl
  | cons x t ih =>
    intro s
    rw [List.foldl_cons, ih, onceEff_queue]

theorem busEmit_records (s : BusState) (e : String) (p : Nat) :
    (busEmit s e p).1 = (bucketOf s.listeners e).map (fun sub => (sub, p)) := rfl

theorem busEmit_state (s : BusState) (e : String) (p : Nat) :
    (busEmit s e p).2 =
      (bucketOf s.listeners e).foldl (fun st sub => onceEff e sub st) s := rfl

theorem busEmit_queue (s : BusState) (e : String) (p : Nat) :
    (busEmit s e p).2.queue = s.queue := by
  rw [busEmit_state, foldl_onceEff_queue]

theorem runEmits_queue : ∀ (es : List (String × Nat)) (s : BusState),
    (runEmits s es).2.queue = s.queue := by
  intro es
  induction es with
  | nil => intro s; rfl
  | cons i rest ih =>
    intro s
    obtain ⟨e, p⟩ := i
    show (runEmits (busEmit s e p).2 rest).2.queue = s.queue
    rw [ih, busEmit_queue]

theorem invCount_map_pair (sub : Listener) (l : List Listener) (p : Nat) :
    invCount sub (l.map (fun x => (x, p))) = l.count sub := by
  induction l with
  | nil => rfl
  | cons x t ih =>
    simp only [List.map_cons, invCount, List.countP_cons, List.count_cons]
    rw [← invCount, ih]

theorem invCount_append (sub : Listener) (l1 l2 : List (Listener × Nat)) :
    invCount sub (l1 ++ l2) = invCount sub l1 + invCount sub l2 :=
  List.countP_append _ _ _

theorem dispatch_potential (e : String) (h w : Nat) :
    ∀ (snap : List Listener) (s : BusState),
      snap.count (Listener.onceW h w) ≤ 1 →
      (Listener.onceW h w ∈ snap → Listener.onceW h w ∈ bucketOf s.listeners e) →
      snap.count (Listener.onceW h w) +
          totalOcc ((snap.foldl (fun st sub => onceEff e sub st) s).listeners)
            (Listener.onceW h w) ≤
        totalOcc s.listeners (Listener.onceW h w) := by
  intro snap
  induction snap with
  | nil =>
    intro s _ _
    simp
  | cons x t ih =>
    intro s hc hm
    rw [List.foldl_cons]
    by_cases hx : x = Listener.onceW h w
    · subst hx
      rw [List.count_cons_self] at hc ⊢
      have hct : t.count (Listener.onceW h w) = 0 := by omega
      have hmem : Listener.onceW h w ∈ bucketOf s.listeners e :=
        hm (List.mem_cons_self _ _)
      have hU := totalOcc_tUnsub_self hmem
      have hrec := ih (onceEff e (Listener.onceW h w) s) (by omega)
        (fun hmt => absurd hmt (List.count_eq_zero.mp hct))
      have hstate : (onceEff e (Listener.onceW h w) s).listeners =
          tUnsub s.listeners e (Listener.onceW h w) := rfl
      rw [hstate] at hrec
      omega
    · have hcc : (x :: t).count (Listener.onceW h w) = t.count (Listener.onceW h w) :=
        List.count_cons_of_ne (Ne.symm hx) t
      rw [hcc] at hc ⊢
      cases x with
      | plain hh =>
        exact ih s hc (fun hmt => hm (List.mem_cons_of_mem _ hmt))
      | onceW hh ww =>
        have hstate : (onceEff e (Listener.onceW hh ww) s).listeners =
            tUnsub s.listeners e (Listener.onceW hh ww) := rfl
        have htot := @totalOcc_tUnsub_other s.listeners e
          (Listener.onceW h w) (Listener.onceW hh ww) hx
        have hrec := ih (onceEff e (Listener.onceW hh ww) s) hc
          (fun hmt => by
            rw [hstate]
            exact mem_bucketOf_tUnsub_other hx (hm (List.mem_cons_of_mem _ hmt)))
        rw [hstate, htot] at hrec
        exact hrec

theorem emit_potential {s : BusState} {e : String} {p : Nat} {h w : Nat}
    (hle : totalOcc s.listeners (Listener.onceW h w) ≤ 1) :
    invCount (Listener.onceW h w) (busEmit s e p).1 +
        totalOcc ((busEmit s e p).2).listeners (Listener.onceW h w) ≤
      totalOcc s.listeners (Listener.onceW h w) := by
  rw [busEmit_records, invCount_map_pair, busEmit_state]
  exact dispatch_potential e h w (bucketOf s.listeners e) s
    (le_trans (count_bucketOf_le_totalOcc _ _ _) hle) (fun hm => hm)

theorem runEmits_potential {h w : Nat} :
    ∀ (es : List (String × Nat)) (s : BusState),
      totalOcc s.listeners (Listener.onceW h w) ≤ 1 →
      invCount (Listener.onceW h w) (runEmits s es).1 +
          totalOcc ((runEmits s es).2).listeners (Listener.onceW h w) ≤
        totalOcc s.listeners (Listener.onceW h w) := by
  intro es
  induction es with
  | nil =>
    intro s hle
    simp [runEmits, invCount]
  | cons i rest ih =>
    intro s hle
    obtain ⟨e, p⟩ := i
    simp only [runEmits]
    rw [invCount_append]
    have h1 := @emit_potential s e p h w hle
    have h2 := ih (busEmit s e p).2 (by omega)
    omega

theorem drainGo_calls : ∀ (q : List (String × Nat)) (s : BusState),
    (drainGo s q).1 = q := by
  intro q
  induction q with
  | nil => intro s; rfl
  | cons i rest ih =>
    intro s
    obtain ⟨e, p⟩ := i
    simp only [drainGo]
    rw [ih]

theorem drainGo_records : ∀ (q : List (String × Nat)) (s : BusState),
    (drainGo s q).2.1 = (runEmits s q).1 := by
  intro q
  induction q with
  | nil => intro s; rfl
  | cons i rest ih =>
    intro s
    obtain ⟨e, p⟩ := i
    simp only [drainGo, runEmits]
    rw [ih]

theorem drainGo_state : ∀ (q : List (String × Nat)) (s : BusState),
    (drainGo s q).2.2 = (runEmits s q).2 := by
  intro q
  induction q with
  | nil => intro s; rfl
  | cons i rest ih =>
    intro s
    obtain ⟨e, p⟩ := i
    simp only [drainGo, runEmits]
    rw [ih]

theorem drainCalls_eq : ∀ q : List (String × Nat), drainCalls q = q := by
  intro q
  induction q with
  | nil => rfl
  | cons i rest ih =>
    simp only [drainCalls]
    rw [ih]

theorem runOps_closes : ∀ (ops : List BusOp) (s : BusState),
    (runOps s ops).2 = ops.count BusOp.clear := by
  intro ops
  induction ops with
  | nil => intro s; rfl
  | cons op rest ih =>
    intro s
    simp only [runOps]
    rw [ih, List.count_cons]
    cases op
    all_goals simp [stepOp]
    all_goals omega

theorem drainFuel_spec (π : String × Nat → List (String × Nat)) :
    ∀ (fuel : Nat) (q acc : List (String × Nat)),
      (drainFuel π fuel q acc).2.2 = true →
        (drainFuel π fuel q acc).2.1 = [] ∧
        (∀ i ∈ acc, i ∈ (drainFuel π fuel q acc).1) ∧
        (∀ i ∈ q, i ∈ (drainFuel π fuel q acc).1) ∧
        (∀ i ∈ (drainFuel π fuel q acc).1,
          i ∈ acc ∨ ∀ j ∈ π i, j ∈ (drainFuel π fuel q acc).1) := by
  intro fuel
  induction fuel with
  | zero =>
    intro q acc hdone
    cases q with
    | nil =>
      refine ⟨rfl, fun i hi => hi, fun i hi => absurd hi (List.not_mem_nil i), ?_⟩
      intro i hi
      exact Or.inl hi
    | cons x rest => simp [drainFuel] at hdone
  | succ f ih =>
    intro q acc hdone
    cases q with
    | nil =>
      refine ⟨rfl, fun i hi => hi, fun i hi => absurd hi (List.not_mem_nil i), ?_⟩
      intro i hi
      exact Or.inl hi
    | cons x rest =>
      rw [show drainFuel π (f + 1) (x :: rest) acc =
            drainFuel π f (rest ++ π x) (acc ++ [x]) from rfl] at hdone ⊢
      obtain ⟨hrem, hacc, hq, hclos⟩ := ih (rest ++ π x) (acc ++ [x]) hdone
      refine ⟨hrem, ?_, ?_, ?_⟩
      · intro i hi
        exact hacc i (List.mem_append_left _ hi)
      · intro i hi
        rcases List.mem_cons.mp hi with h1 | h1
        · subst h1
          exact hacc i (List.mem_append_right _ (List.mem_singleton.mpr rfl))
        · exact hq i (List.mem_append_left _ h1)
      · intro i hi
        rcases hclos i hi with h1 | h1
        · rcases List.mem_append.mp h1 with h2 | h2
          · exact Or.inl h2
          · have hix : i = x := List.mem_singleton.mp h2
            subst hix
            exact Or.inr (fun j hj => hq j (List.mem_append_right _ hj))
        · exact Or.inr h1

theorem dispatchExc_spec (thr : Listener → Bool) :
    ∀ l : List Listener,
      dispatchExc thr l =
        (if l.any thr then
           l.takeWhile (fun a => !thr a) ++ (l.dropWhile (fun a => !thr a)).take 1
         else l,
         l.any thr) := by
  intro l
  induction l with
  | nil => rfl
  | cons a t ih =>
    by_cases ha : thr a
    · simp [dispatchExc, ha, List.takeWhile_cons, List.dropWhile_cons]
    · simp only [dispatchExc, ha, if_false, Bool.false_eq_true]
      rw [ih]
      by_cases ht : t.any thr
      · simp [ht, ha, List.takeWhile_cons, List.dropWhile_cons, List.any_cons]
      · simp [ht, ha, List.any_cons]

theorem nodup_bucketOf {l : LMap} (hw : WFm l) (e : String) :
    (bucketOf l e).Nodup := by
  rcases hb : getB l e with _ | b
  · simp [bucketOf, hb]
  · rw [bucketOf, hb]
    exact (hw.2 (e, b) (getB_mem hb)).2

theorem count_map_pair (sub : Listener) (l : List Listener) (p : Nat) :
    (l.map (fun x => (x, p))).count (sub, p) = l.count sub := by
  induction l with
  | nil => rfl
  | cons x t ih =>
    rw [List.map_cons, List.count_cons, List.count_cons, ih]
    by_cases hx : x = sub
    · subst hx
      simp
    · have h1 : ((x, p) == (sub, p)) = false := by
        simp [hx]
      have h2 : (x == sub) = false := by
        simp [hx]
      rw [h1, h2]

theorem bucketOf_tUnsub_ne_key {l : LMap} {e e' : String} {sub : Listener}
    (h : e' ≠ e) : bucketOf (tUnsub l e sub) e' = bucketOf l e' := by
  induction l with
  | nil => rfl
  | cons kv t ih =>
    obtain ⟨k, v⟩ := kv
    by_cases hk : k = e
    · subst hk
      have hke : k ≠ e' := fun hh => h hh.symm
      by_cases hnil : v.erase sub = []
      · simp only [tUnsub, eq_self_iff_true, if_true, if_pos hnil]
        rw [bucketOf_cons_ne hke]
      · simp only [tUnsub, eq_self_iff_true, if_true, if_neg hnil]
        rw [bucketOf_cons_ne hke, bucketOf_cons_ne hke]
    · simp only [tUnsub, if_neg hk]
      by_cases hke : k = e'
      · subst hke
        rw [bucketOf_cons_self, bucketOf_cons_self]
      · rw [bucketOf_cons_ne hke, bucketOf_cons_ne hke]
        exact ih

/-- C1: for every event E, payload P and set of registered handlers,
`emit(E, P)` synchronously invokes every handler currently registered
for E exactly once each, in registration order, passing exactly the
value P; with zero handlers registered it invokes nothing and
completes without error. The invocation list is exactly the registered
bucket paired with P (order and payload preserved); registration order
is bucket order because a new registration is appended at the end. -/
theorem c1_emit_invokes_each_registered_once_in_order
    (s : BusState) (e : String) (p : Nat) (hw : WFb s) :
    (busEmit s e p).1 = (bucketOf s.listeners e).map (fun sub => (sub, p)) ∧
    (∀ sub ∈ bucketOf s.listeners e, (busEmit s e p).1.count (sub, p) = 1) ∧
    (∀ sub q, (sub, q) ∈ (busEmit s e p).1 →
      sub ∈ bucketOf s.listeners e ∧ q = p) ∧
    (bucketOf s.listeners e = [] → (busEmit s e p).1 = []) ∧
    (∀ h, Listener.plain h ∉ bucketOf s.listeners e →
      bucketOf (busOn s e (Listener.plain h)).listeners e =
        bucketOf s.listeners e ++ [Listener.plain h]) := by
  refine ⟨busEmit_records s e p, ?_, ?_, ?_, ?_⟩
  · intro sub hmem
    rw [busEmit_records, count_map_pair]
    exact List.count_eq_one_of_mem (nodup_bucketOf hw.1 e) hmem
  · intro sub q hmem
    rw [busEmit_records] at hmem
    obtain ⟨x, hx, heq⟩ := List.mem_map.mp hmem
    obtain ⟨h1, h2⟩ := Prod.mk.injEq .. ▸ heq
    subst h1
    exact ⟨hx, h2.symm⟩
  · intro h0
    rw [busEmit_records, h0]
    rfl
  · intro h hnm
    show bucketOf (tSubscribe s.listeners e (Listener.plain h)) e = _
    exact bucketOf_tSubscribe_self hnm

/-- C1 witness: the theorem applied to a concrete two-handler state. -/
theorem c1_witness :
    (busEmit sTwo "a" 7).1 =
      (bucketOf sTwo.listeners "a").map (fun sub => (sub, 7)) :=
  (c1_emit_invokes_each_registered_once_in_order sTwo "a" 7 (by decide)).1

/-- C2: `drain(processor)` removes items from the head of the queue
and processes them in strict FIFO order across all event names, one
global insertion order, until the queue is empty. `drain()` with no
argument default-emits each item in order (its calls are exactly the
queued sequence and its records and final state are those of emitting
the queued items in sequence, with an empty queue at the end); a
custom processor is invoked once per item in order with no default
emission (listeners and registry untouched); drain on an empty queue
invokes the processor zero times and is a no-op. -/
theorem c2_drain_fifo_default_and_custom (s : BusState) :
    (drainDefault s).1 = s.queue ∧
    (drainDefault s).2.1 = (runEmits { s with queue := [] } s.queue).1 ∧
    (drainDefault s).2.2 = (runEmits { s with queue := [] } s.queue).2 ∧
    (drainDefault s).2.2.queue = [] ∧
    (drainCustom s).1 = s.queue ∧
    (drainCustom s).2.listeners = s.listeners ∧
    (drainCustom s).2.registry = s.registry ∧
    (drainCustom s).2.queue = [] ∧
    (s.queue = [] → drainDefault s = ([], [], s) ∧ drainCustom s = ([], s)) := by
  refine ⟨drainGo_calls s.queue _, drainGo_records s.queue _,
    drainGo_state s.queue _, ?_, drainCalls_eq s.queue, rfl, rfl, rfl, ?_⟩
  · rw [drainDefault, drainGo_state, runEmits_queue]
  · intro hq
    have hs : ({ s with queue := [] } : BusState) = s := by
      cases s
      simp_all
    rw [drainDefault, drainCustom, hq, hs]
    exact ⟨rfl, rfl⟩

/-- C2 witness: drain of an already-empty queue at a concrete state. -/
theorem c2_witness :
    drainDefault busInit = ([], [], busInit) ∧ drainCustom busInit = ([], busInit) :=
  (c2_drain_fifo_default_and_custom busInit).2.2.2.2.2.2.2.2 rfl

/-- C3 counterexample: the claim says `transport.close()` is invoked
at most once over the transport's lifetime even though `clear` may be
called any number of times; but `clear` invokes `transport.close()`
unconditionally on every call, so the operation sequence
`[clear, clear]` on a fresh bus invokes `close` twice. -/
theorem c3_counterexample :
    (runOps busInit [BusOp.clear, BusOp.clear]).2 = 2 ∧
    ¬ (runOps busInit [BusOp.clear, BusOp.clear]).2 ≤ 1 := by
  decide

/-- C3 amended: `close()` is invoked exactly once per `clear` call and
only from `clear`: across every operation sequence the number of
`close` invocations equals the number of `clear` operations in it (so
it is not bounded by one when `clear` is called repeatedly, but no
operation other than `clear` ever closes the transport). -/
theorem c3_close_exactly_once_per_clear (s : BusState) (ops : List BusOp) :
    (runOps s ops).2 = ops.count BusOp.clear :=
  runOps_closes ops s

/-- C4 counterexample: a raising handler's exception does not
propagate out of `emit`. At a concrete one-handler state whose handler
always raises, the dispatch raise is recorded (logged) yet `emit`'s
outcome is not an error: `publish` is `async`, so the raise becomes a
promise rejection consumed by `emit`'s `.catch`. -/
theorem c4_counterexample :
    (busEmitExc thrAll sOneThrow "e").logged = true ∧
    (busEmitExc thrAll sOneThrow "e").outcome ≠ Except.error () := by
  constructor
  · rfl
  · intro hcontra
    rw [show (busEmitExc thrAll sOneThrow "e").outcome = Except.ok () from rfl]
      at hcontra
    exact Except.noConfusion hcontra

/-- C4 amended: a handler that raises during dispatch is captured by
the async `publish` and reported through `emit`'s `.catch` handler
(logged), never propagated to `emit`'s caller: `emit` always completes
normally; an error is logged exactly when the dispatch reaches a
raising handler (equivalently, some registered handler raises); the
invoked handlers are the snapshot prefix up to and including the first
raising one. -/
theorem c4_raise_is_caught_logged_not_propagated
    (thr : Listener → Bool) (s : BusState) (e : String) :
    (busEmitExc thr s e).outcome = Except.ok () ∧
    (busEmitExc thr s e).logged = (bucketOf s.listeners e).any thr ∧
    (busEmitExc thr s e).invoked =
      (if (bucketOf s.listeners e).any thr then
         (bucketOf s.listeners e).takeWhile (fun a => !thr a) ++
           ((bucketOf s.listeners e).dropWhile (fun a => !thr a)).take 1
       else bucketOf s.listeners e) := by
  have hd := dispatchExc_spec thr (bucketOf s.listeners e)
  refine ⟨?_, ?_, ?_⟩
  · show (catchLogged (asyncResult (dispatchExc thr (bucketOf s.listeners e)).2)).1 =
      Except.ok ()
    cases (dispatchExc thr (bucketOf s.listeners e)).2 <;> rfl
  · show (catchLogged (asyncResult (dispatchExc thr (bucketOf s.listeners e)).2)).2 = _
    rw [hd]
    cases (bucketOf s.listeners e).any thr <;> rfl
  · show (dispatchExc thr (bucketOf s.listeners e)).1 = _
    rw [hd]

/-- C5: the handlers invoked by an emit are exactly the snapshot of
the registered bucket at the moment dispatch begins — whatever
re-entrant effects (a handler unsubscribing itself or others,
registering new handlers, …) the invoked handlers have on the bus
state, every handler in the snapshot is still delivered to; and no
handler that is not in the bucket when the snapshot is taken (for
example one removed before this emit) is invoked. -/
theorem c5_dispatch_is_snapshot_of_registration
    (eff : Listener → Nat → BusState → BusState)
    (s : BusState) (e : String) (p : Nat) :
    (dispatchWith eff s e p).1 =
      (bucketOf s.listeners e).map (fun sub => (sub, p)) ∧
    (∀ sub, sub ∉ bucketOf s.listeners e →
      ∀ q, (sub, q) ∉ (dispatchWith eff s e p).1) := by
  refine ⟨rfl, ?_⟩
  intro sub hnm q hmem
  obtain ⟨x, hx, heq⟩ := List.mem_map.mp hmem
  obtain ⟨h1, h2⟩ := Prod.mk.injEq .. ▸ heq
  rw [h1] at hx
  exact hnm hx

/-- C5 witness: the theorem at a concrete state and effect. -/
theorem c5_witness :
    (dispatchWith (fun _ _ st => st) sTwo "a" 3).1 =
      (bucketOf sTwo.listeners "a").map (fun sub => (sub, 3)) ∧
    (Listener.plain 5, 3) ∉ (dispatchWith (fun _ _ st => st) sTwo "a" 3).1 :=
  ⟨(c5_dispatch_is_snapshot_of_registration (fun _ _ st => st) sTwo "a" 3).1,
   (c5_dispatch_is_snapshot_of_registration (fun _ _ st => st) sTwo "a" 3).2
     (Listener.plain 5) (by decide) 3⟩

/-- C6: a handler registered through `once(E, h)` — whose transport
registration is the fresh wrapper closure `onceW h w` — is invoked at
most once in total across every subsequent sequence of emits; and if
the unsubscribe function returned by `once` is invoked before the
first emit, it is never invoked at all. -/
theorem c6_once_fires_at_most_once
    (s : BusState) (e : String) (h w : Nat) (es : List (String × Nat))
    (hfresh : ∀ kv ∈ s.listeners, Listener.onceW h w ∉ kv.2) :
    invCount (Listener.onceW h w) (runEmits (busOnce s e h w) es).1 ≤ 1 ∧
    invCount (Listener.onceW h w)
      (runEmits (busUnsub (busOnce s e h w) e (Listener.onceW h w)) es).1 = 0 := by
  have h0 : totalOcc s.listeners (Listener.onceW h w) = 0 := totalOcc_eq_zero hfresh
  have hnm : Listener.onceW h w ∉ bucketOf s.listeners e :=
    not_mem_bucketOf_of_total_zero h0
  have h1 : totalOcc (busOnce s e h w).listeners (Listener.onceW h w) = 1 := by
    show totalOcc (tSubscribe s.listeners e (Listener.onceW h w)) (Listener.onceW h w) = 1
    rw [totalOcc_tSubscribe hnm, h0]
  constructor
  · have hle1 : totalOcc (busOnce s e h w).listeners (Listener.onceW h w) ≤ 1 := by
      omega
    have hp := runEmits_potential es (busOnce s e h w) hle1
    omega
  · have hmem : Listener.onceW h w ∈ bucketOf (busOnce s e h w).listeners e := by
      show Listener.onceW h w ∈ bucketOf (tSubscribe s.listeners e (Listener.onceW h w)) e
      exact mem_bucketOf_tSubscribe_self _ _ _
    have hU := totalOcc_tUnsub_self hmem
    have h2 : totalOcc
        (busUnsub (busOnce s e h w) e (Listener.onceW h w)).listeners
        (Listener.onceW h w) = 0 := by
      show totalOcc (tUnsub (busOnce s e h w).listeners e (Listener.onceW h w))
        (Listener.onceW h w) = 0
      omega
    have hle2 : totalOcc
        (busUnsub (busOnce s e h w) e (Listener.onceW h w)).listeners
        (Listener.onceW h w) ≤ 1 := by
      omega
    have hp := runEmits_potential es
      (busUnsub (busOnce s e h w) e (Listener.onceW h w)) hle2
    omega

/-- C6 witness: a `once` registration on a fresh bus, emitted twice. -/
theorem c6_witness :
    invCount (Listener.onceW 0 1)
      (runEmits (busOnce busInit "e" 0 1) [("e", 5), ("e", 6)]).1 ≤ 1 ∧
    invCount (Listener.onceW 0 1)
      (runEmits (busUnsub (busOnce busInit "e" 0 1) "e" (Listener.onceW 0 1))
        [("e", 5), ("e", 6)]).1 = 0 :=
  c6_once_fires_at_most_once busInit "e" 0 1 [("e", 5), ("e", 6)] (by decide)

/-- C7: the unsubscribe function returned by `on` and the
transport-level unsubscribe capability are idempotent — a second
invocation leaves the state exactly as after the first (no error, no
double-removal) — and remove only this registration: any other
handler's membership for the event is unchanged and other events'
buckets are untouched; afterwards delivery of that event to that exact
handler is stopped (an emit of the event invokes it no more). -/
theorem c7_unsubscribe_idempotent_and_exact
    (s : BusState) (e : String) (sub : Listener) (p : Nat) (hw : WFb s) :
    tUnsub (tUnsub s.listeners e sub) e sub = tUnsub s.listeners e sub ∧
    busUnsub (busUnsub s e sub) e sub = busUnsub s e sub ∧
    sub ∉ bucketOf (busUnsub s e sub).listeners e ∧
    (∀ sub', sub' ≠ sub →
      (sub' ∈ bucketOf (busUnsub s e sub).listeners e ↔
        sub' ∈ bucketOf s.listeners e)) ∧
    (∀ e', e' ≠ e →
      bucketOf (busUnsub s e sub).listeners e' = bucketOf s.listeners e') ∧
    (∀ q, (sub, q) ∉ (busEmit (busUnsub s e sub) e p).1) := by
  refine ⟨tUnsub_idem hw.1, busUnsub_idem hw, ?_, ?_, ?_, ?_⟩
  · show sub ∉ bucketOf (tUnsub s.listeners e sub) e
    exact not_mem_bucketOf_tUnsub_self hw.1
  · intro sub' hne
    show sub' ∈ bucketOf (tUnsub s.listeners e sub) e ↔ _
    exact mem_bucketOf_tUnsub_self_iff hw.1 hne
  · intro e' hne
    show bucketOf (tUnsub s.listeners e sub) e' = _
    exact bucketOf_tUnsub_ne_key hne
  · intro q hmem
    rw [busEmit_records] at hmem
    obtain ⟨x, hx, heq⟩ := List.mem_map.mp hmem
    obtain ⟨h1, h2⟩ := Prod.mk.injEq .. ▸ heq
    rw [h1] at hx
    exact not_mem_bucketOf_tUnsub_self hw.1 hx

/-- C7 witness: double unsubscribe at a concrete two-handler state. -/
theorem c7_witness :
    tUnsub (tUnsub sTwo.listeners "a" (Listener.plain 0)) "a" (Listener.plain 0) =
      tUnsub sTwo.listeners "a" (Listener.plain 0) ∧
    busUnsub (busUnsub sTwo "a" (Listener.plain 0)) "a" (Listener.plain 0) =
      busUnsub sTwo "a" (Listener.plain 0) ∧
    Listener.plain 0 ∉ bucketOf (busUnsub sTwo "a" (Listener.plain 0)).listeners "a" :=
  ⟨(c7_unsubscribe_idempotent_and_exact sTwo "a" (Listener.plain 0) 9 (by decide)).1,
   (c7_unsubscribe_idempotent_and_exact sTwo "a" (Listener.plain 0) 9 (by decide)).2.1,
   (c7_unsubscribe_idempotent_and_exact sTwo "a" (Listener.plain 0) 9 (by decide)).2.2.1⟩

/-- C8: `off(E, h)` on a pair not present in the registry (never
registered, already removed, or a different handler) raises no error
and changes nothing at all — the state is exactly unchanged; `off` on
a present pair removes exactly that registration (from the transport
bucket and the registry), leaves every other registration for the same
or other events untouched, and leaves the queue unchanged. -/
theorem c8_off_absent_noop_present_exact
    (s : BusState) (e : String) (sub : Listener) (hw : WFb s) :
    (sub ∉ bucketOf s.registry e → busOff s e sub = s) ∧
    (sub ∈ bucketOf s.registry e →
      sub ∉ bucketOf (busOff s e sub).listeners e ∧
      sub ∉ bucketOf (busOff s e sub).registry e ∧
      (∀ sub', sub' ≠ sub →
        ((sub' ∈ bucketOf (busOff s e sub).listeners e ↔
            sub' ∈ bucketOf s.listeners e) ∧
         (sub' ∈ bucketOf (busOff s e sub).registry e ↔
            sub' ∈ bucketOf s.registry e))) ∧
      (∀ e', e' ≠ e →
        bucketOf (busOff s e sub).listeners e' = bucketOf s.listeners e' ∧
        bucketOf (busOff s e sub).registry e' = bucketOf s.registry e') ∧
      (busOff s e sub).queue = s.queue) := by
  rcases hb : getB s.registry e with _ | inner
  · have hoff : busOff s e sub = s := by
      unfold busOff
      rw [hb]
    constructor
    · intro _
      exact hoff
    · intro hmem
      rw [bucketOf, hb] at hmem
      exact absurd hmem (List.not_mem_nil sub)
  · have hbk : bucketOf s.registry e = inner := by
      rw [bucketOf, hb]
      rfl
    by_cases hmem : sub ∈ inner
    · have hoff : busOff s e sub = busUnsub s e sub := by
        unfold busOff
        rw [hb]
        show (if sub ∈ inner then busUnsub s e sub else s) = busUnsub s e sub
        rw [if_pos hmem]
      constructor
      · intro hnm
        exact absurd (hbk ▸ hmem) hnm
      · intro _
        rw [hoff]
        refine ⟨not_mem_bucketOf_tUnsub_self hw.1,
          not_mem_bucketOf_tUnsub_self hw.2, ?_, ?_, rfl⟩
        · intro sub' hne
          exact ⟨mem_bucketOf_tUnsub_self_iff hw.1 hne,
            mem_bucketOf_tUnsub_self_iff hw.2 hne⟩
        · intro e' hne
          exact ⟨bucketOf_tUnsub_ne_key hne, bucketOf_tUnsub_ne_key hne⟩
    · have hoff : busOff s e sub = s := by
        unfold busOff
        rw [hb]
        show (if sub ∈ inner then busUnsub s e sub else s) = s
        rw [if_neg hmem]
      constructor
      · intro _
        exact hoff
      · intro hmem'
        rw [hbk] at hmem'
        exact absurd hmem' hmem

/-- C8 witness: `off` of a present registration at a concrete state. -/
theorem c8_witness :
    Listener.plain 0 ∉ bucketOf (busOff sTwo "a" (Listener.plain 0)).listeners "a" ∧
    Listener.plain 0 ∉ bucketOf (busOff sTwo "a" (Listener.plain 0)).registry "a" ∧
    (busOff sTwo "a" (Listener.plain 0)).queue = sTwo.queue :=
  ⟨((c8_off_absent_noop_present_exact sTwo "a" (Listener.plain 0) (by decide)).2
      (by decide)).1,
   ((c8_off_absent_noop_present_exact sTwo "a" (Listener.plain 0) (by decide)).2
      (by decide)).2.1,
   ((c8_off_absent_noop_present_exact sTwo "a" (Listener.plain 0) (by decide)).2
      (by decide)).2.2.2.2⟩

/-- C9: items enqueued by a processor while a drain is in progress are
processed within that same drain invocation: the loop re-checks the
queue after each item, so whenever drain returns at all (the
processors eventually stop enqueuing, modelled by the fuel sufficing),
the remaining queue is empty, every initially-queued item was
processed, and every item that a processed item caused to be enqueued
was itself processed in this call. -/
theorem c9_reentrant_enqueues_drained_in_same_call
    (π : String × Nat → List (String × Nat)) (fuel : Nat)
    (q : List (String × Nat))
    (hdone : (drainFuel π fuel q []).2.2 = true) :
    (drainFuel π fuel q []).2.1 = [] ∧
    (∀ i ∈ q, i ∈ (drainFuel π fuel q []).1) ∧
    (∀ i ∈ (drainFuel π fuel q []).1, ∀ j ∈ π i, j ∈ (drainFuel π fuel q []).1) := by
  obtain ⟨hrem, _, hq, hclos⟩ := drainFuel_spec π fuel q [] hdone
  refine ⟨hrem, hq, ?_⟩
  intro i hi j hj
  rcases hclos i hi with h1 | h1
  · exact absurd h1 (List.not_mem_nil i)
  · exact h1 j hj

/-- C9 witness: a processor that enqueues a follow-up item; the
follow-up is processed in the same drain call and the queue ends
empty. -/
theorem c9_witness :
    (drainFuel enqOnce 5 [("a", 0)] []).2.1 = [] ∧
    ("a", 1) ∈ (drainFuel enqOnce 5 [("a", 0)] []).1 :=
  ⟨(c9_reentrant_enqueues_drained_in_same_call enqOnce 5 [("a", 0)] (by decide)).1,
   (c9_reentrant_enqueues_drained_in_same_call enqOnce 5 [("a", 0)] (by decide)).2.2
     ("a", 0) (by decide) ("a", 1) (by decide)⟩

/-- C10: a stale unsubscribe is not inert after re-registration. After
`on(E, h)` returning `u1`, then `u1()`, then `on(E, h)` again — at
which point the new registration is active in both the transport
bucket and the registry — invoking the old `u1` again removes the new
registration (the transport subscriber set and the bus registry are
keyed by handler identity, so the old capability aliases the new
subscription), and `h` no longer receives emits of E. -/
theorem c10_stale_unsubscribe_removes_new_registration
    (e : String) (h : Nat) (p : Nat) :
    Listener.plain h ∈ bucketOf
      (busOn (busUnsub (busOn busInit e (Listener.plain h)) e (Listener.plain h))
        e (Listener.plain h)).listeners e ∧
    Listener.plain h ∈ bucketOf
      (busOn (busUnsub (busOn busInit e (Listener.plain h)) e (Listener.plain h))
        e (Listener.plain h)).registry e ∧
    bucketOf (busUnsub (busOn (busUnsub (busOn busInit e (Listener.plain h)) e
      (Listener.plain h)) e (Listener.plain h)) e (Listener.plain h)).listeners e
      = [] ∧
    bucketOf (busUnsub (busOn (busUnsub (busOn busInit e (Listener.plain h)) e
      (Listener.plain h)) e (Listener.plain h)) e (Listener.plain h)).registry e
      = [] ∧
    (busEmit (busUnsub (busOn (busUnsub (busOn busInit e (Listener.plain h)) e
      (Listener.plain h)) e (Listener.plain h)) e (Listener.plain h)) e p).1
      = [] := by
  have hmap : tUnsub (tSubscribe [] e (Listener.plain h)) e (Listener.plain h) =
      ([] : LMap) := by
    simp [tSubscribe, tUnsub, List.erase_cons]
  have hs3l : (busOn (busUnsub (busOn busInit e (Listener.plain h)) e
      (Listener.plain h)) e (Listener.plain h)).listeners =
      [(e, [Listener.plain h])] := by
    show tSubscribe (tUnsub (tSubscribe [] e (Listener.plain h)) e
      (Listener.plain h)) e (Listener.plain h) = _
    rw [hmap]
    rfl
  have hs3r : (busOn (busUnsub (busOn busInit e (Listener.plain h)) e
      (Listener.plain h)) e (Listener.plain h)).registry =
      [(e, [Listener.plain h])] := by
    show tSubscribe (tUnsub (tSubscribe [] e (Listener.plain h)) e
      (Listener.plain h)) e (Listener.plain h) = _
    rw [hmap]
    rfl
  have hs4l : (busUnsub (busOn (busUnsub (busOn busInit e (Listener.plain h)) e
      (Listener.plain h)) e (Listener.plain h)) e (Listener.plain h)).listeners =
      ([] : LMap) := by
    show tUnsub (busOn (busUnsub (busOn busInit e (Listener.plain h)) e
      (Listener.plain h)) e (Listener.plain h)).listeners e (Listener.plain h) = _
    rw [hs3l]
    simp [tUnsub, List.erase_cons]
  have hs4r : (busUnsub (busOn (busUnsub (busOn busInit e (Listener.plain h)) e
      (Listener.plain h)) e (Listener.plain h)) e (Listener.plain h)).registry =
      ([] : LMap) := by
    show tUnsub (busOn (busUnsub (busOn busInit e (Listener.plain h)) e
      (Listener.plain h)) e (Listener.plain h)).registry e (Listener.plain h) = _
    rw [hs3r]
    simp [tUnsub, List.erase_cons]
  refine ⟨?_, ?_, ?_, ?_, ?_⟩
  · rw [hs3l]
    simp [bucketOf, getB]
  · rw [hs3r]
    simp [bucketOf, getB]
  · rw [hs4l]
    rfl
  · rw [hs4r]
    rfl
  · rw [busEmit_records, hs4l]
    rfl

/-- C3 witness: a concrete sequence with two clears among other
operations closes the transport exactly twice. -/
theorem c3_witness :
    (runOps busInit [BusOp.clear, BusOp.emit "e" 0, BusOp.clear]).2 =
      ([BusOp.clear, BusOp.emit "e" 0, BusOp.clear]).count BusOp.clear :=
  c3_close_exactly_once_per_clear busInit [BusOp.clear, BusOp.emit "e" 0, BusOp.clear]

/-- C4 witness: the amended theorem at the concrete raising state. -/
theorem c4_witness :
    (busEmitExc thrAll sOneThrow "e").outcome = Except.ok () :=
  (c4_raise_is_caught_logged_not_propagated thrAll sOneThrow "e").1

/-- C10 witness: the concrete double-registration scenario at
event "e" with handler 0. -/
theorem c10_witness :
    (busEmit (busUnsub (busOn (busUnsub (busOn busInit "e" (Listener.plain 0)) "e"
      (Listener.plain 0)) "e" (Listener.plain 0)) "e" (Listener.plain 0)) "e" 3).1 =
      [] :=
  (c10_stale_unsubscribe_removes_new_registration "e" 0 3).2.2.2.2

end RouteBus
